import Mathlib

/-!
Verification of the step-sequencing / checkpoint-restart pipeline of the
hammer-cadence-plugins repository, together with two smaller helpers
(`CadenceTool.version_number` from `tool/tool.py` and `Joules.init_technology`
from `power/joules/__init__.py`).

The plugin classes (`Innovus` in `par/innovus/__init__.py`, `Genus` in
`synthesis/genus/__init__.py`) provide the hooks `do_pre_steps`,
`do_between_steps` and `do_post_steps`; the surrounding driver loop that runs
the step actions in order lives in the external hammer-vlsi framework and is
modelled from the spec (section 4.1).  Pipeline state is the buffered TCL
output (`self.output`), the `_step_transitions` list, and an event trace
recording the externally observable side effects (action invocations,
checkpoint restore/persist emissions, symlink creations, warnings, the flush
of the command buffer and `run_executable` invocations).
-/

/-- Externally observable events of a pipeline run. -/
inductive Event where
  | actionRun : String → Event
  | restore : String → Event
  | persist : String → Event
  | symlinkCreate : String → String → Event
  | logWarning : Event
  | flushOutput : String → Event
  | runExecutable : List String → Bool → Event
deriving Repr, DecidableEq

/-- The mutable pipeline state threaded through a run: the buffered command
output (`self.output`), the `_step_transitions` list of `(prev, next)` pairs
(Innovus only), and the trace of observable events. -/
structure PState where
  output : List String
  transitions : List (String × String)
  events : List Event
deriving Repr, DecidableEq

/-- One pipeline step, abstracted to its externally visible effects: its name,
the command strings its action appends to the output buffer, the argument
lists of the `run_executable` invocations the action performs, and whether the
action reports success. -/
structure StepEff where
  name : String
  appends : List String
  execs : List (List String)
  ok : Bool
deriving Repr, DecidableEq

/-- The tool-specific hooks a plugin supplies to the driver, plus the exit
status the external-process runner reports for a given argument list. -/
structure Hooks where
  execResult : List String → Bool
  doPre : String → PState → PState
  doBetween : String → String → PState → PState
  doPost : PState → PState × Bool

/-- Run one step's action: append its commands to the output buffer and record
the action invocation and any `run_executable` calls it performs. -/
def execStep (hooks : Hooks) (s : StepEff) (st : PState) : PState :=
  { st with
    output := st.output ++ s.appends,
    events := st.events ++
      Event.actionRun s.name ::
        s.execs.map (fun a => Event.runExecutable a (hooks.execResult a)) }

/-- Modelled from the spec: the step-execution driver (hammer-vlsi's
`run_steps`, an external collaborator not part of this repository) runs the
remaining steps in order.  Per spec section 4.1: invoke each step's action; on
failure abort immediately with a failed result; on success, if this is not the
last step, call `do_between_steps` with the current and next step; after the
last step call `do_post_steps` and return its result. -/
def runFrom (hooks : Hooks) : List StepEff → PState → PState × Bool
  | [], st => hooks.doPost st
  | s :: rest, st =>
    let st1 := execStep hooks s st
    if s.ok then
      runFrom hooks rest
        (match rest with
          | [] => st1
          | next :: _ => hooks.doBetween s.name next.name st1)
    else (st1, false)

/-- Modelled from the spec: the driver entry point (hammer-vlsi, external to
this repository).  Per spec section 4.1, running with `start_at` equal to the
step at `start_index` first calls `do_pre_steps` with that step and then runs
the steps from there in order.  The precondition that `start_at` names a step
of the sequence corresponds to `start_index < steps.length`; outside the
precondition the result is a failed run of an empty state. -/
def runPipeline (hooks : Hooks) (steps : List StepEff) (start_index : Nat) :
    PState × Bool :=
  match steps.drop start_index with
  | [] => (⟨[], [], []⟩, false)
  | first :: rest => runFrom hooks (first :: rest) (hooks.doPre first.name ⟨[], [], []⟩)

/-- Outcome of one `os.symlink` attempt: success, `OSError` with
`errno == EEXIST`, or any other `OSError`. -/
inductive LinkResult where
  | ok
  | eexist
  | otherErr
deriving Repr, DecidableEq

/-- Environment of an Innovus run: the run directory, the Innovus binary, the
filesystem's response to each symlink attempt, and the exit status of each
`run_executable` invocation. -/
structure InnovusEnv where
  runDir : String
  innovusBin : String
  linkResult : String → String → LinkResult
  execResult : List String → Bool

/-- `Innovus.do_pre_steps`: if the first step to run is not `init_design`,
emit `read_db pre_{step}` to restore from the checkpoint named for it. -/
def innovus_do_pre_steps (first_name : String) (st : PState) : PState :=
  if first_name ≠ "init_design" then
    { st with
      output := st.output ++ ["read_db pre_" ++ first_name],
      events := st.events ++ [Event.restore ("pre_" ++ first_name)] }
  else st

/-- `Innovus.do_between_steps`: emit `write_db pre_{next}` (write-ahead
checkpoint named for the next step) and append `(prev, next)` to
`_step_transitions`. -/
def innovus_do_between_steps (prev next_name : String) (st : PState) : PState :=
  { st with
    output := st.output ++ ["write_db pre_" ++ next_name],
    transitions := st.transitions ++ [(prev, next_name)],
    events := st.events ++ [Event.persist ("pre_" ++ next_name)] }

/-- The symlink loop of `Innovus.do_post_steps`: for each `(prev, next)` pair
create a symlink from `pre_{next}` (source) to `post_{prev}` (destination).
The whole loop sits in one `try`: the first `OSError` aborts the remaining
iterations; `errno == EEXIST` is swallowed silently, any other `OSError` is
logged as a warning. -/
def innovusSymlinks (env : InnovusEnv) : List (String × String) → PState → PState
  | [], st => st
  | (prev, next_name) :: rest, st =>
    match env.linkResult (env.runDir ++ "/pre_" ++ next_name)
        (env.runDir ++ "/post_" ++ prev) with
    | LinkResult.ok =>
      innovusSymlinks env rest
        { st with
          events := st.events ++
            [Event.symlinkCreate (env.runDir ++ "/pre_" ++ next_name)
              (env.runDir ++ "/post_" ++ prev)] }
    | LinkResult.eexist => st
    | LinkResult.otherErr => { st with events := st.events ++ [Event.logWarning] }

/-- `Innovus.run_innovus`: append `exit`, flush the buffered output to
`par.tcl`, invoke the Innovus binary on it, and return `True` — the source
does not check the external process's exit status (its own
`TODO: check that par run was successful` comment). -/
def run_innovus (env : InnovusEnv) (st : PState) : PState × Bool :=
  let st1 := { st with output := st.output ++ ["exit"] }
  let par_tcl := env.runDir ++ "/par.tcl"
  let args := [env.innovusBin, "-nowin", "-common_ui", "-files", par_tcl]
  ({ st1 with
      events := st1.events ++
        [Event.flushOutput par_tcl,
         Event.runExecutable args (env.execResult args)] },
   true)

/-- `Innovus.do_post_steps`: create the `post_{prev}` symlinks for the
recorded transitions, then call `run_innovus` and return its result. -/
def innovus_do_post_steps (env : InnovusEnv) (st : PState) : PState × Bool :=
  run_innovus env (innovusSymlinks env st.transitions st)

/-- The Innovus plugin's hooks. -/
def innovusHooks (env : InnovusEnv) : Hooks :=
  ⟨env.execResult, innovus_do_pre_steps, innovus_do_between_steps,
    innovus_do_post_steps env⟩

/-- A full Innovus pipeline run starting at the step with the given index. -/
def innovusRun (env : InnovusEnv) (steps : List StepEff) (start_index : Nat) :
    PState × Bool :=
  runPipeline (innovusHooks env) steps start_index

/-- `HierarchicalMode` of hammer-vlsi, as matched in `Innovus.steps`. -/
inductive HierarchicalMode where
  | flat
  | leaf
  | hierarchical
  | top
deriving Repr, DecidableEq

/-- The names of the first eight steps of `Innovus.steps`, shared by all
hierarchical modes. -/
def innovusBaseStepNames : List String :=
  ["init_design", "floorplan_design", "place_tap_cells", "power_straps",
   "place_opt_design", "clock_tree", "route_design", "opt_design"]

/-- The step-name sequence produced by `Innovus.steps` for each hierarchical
mode: the base steps, then (`Top` only) `assemble_design`, then
`write_design`, then (`Leaf` and `Hierarchical`) `write_ilm`. -/
def innovusStepNames : HierarchicalMode → List String
  | HierarchicalMode.flat => innovusBaseStepNames ++ ["write_design"]
  | HierarchicalMode.leaf => innovusBaseStepNames ++ ["write_design", "write_ilm"]
  | HierarchicalMode.hierarchical =>
    innovusBaseStepNames ++ ["write_design", "write_ilm"]
  | HierarchicalMode.top =>
    innovusBaseStepNames ++ ["assemble_design", "write_design"]

/-- The one `run_executable` invocation performed inside the `write_design`
step action: `chmod +x` on the generated `open_chip` helper script. -/
def write_design_execs (run_dir : String) : List (List String) :=
  [["chmod", "+x", run_dir ++ "/generated-scripts/open_chip"]]

/-- Environment of a Genus run. -/
structure GenusEnv where
  runDir : String
  genusBin : String
  generateOnly : Bool
  execResult : List String → Bool

/-- A row of 78 `#` characters, as built by `"#"*78` in the Genus plugin. -/
def hashes78 : String := String.mk (List.replicate 78 '#')

/-- `Genus.do_pre_steps`: always append a banner for the starting stage; if
the first step to run is not `init_environment`, additionally source
`pre_{step}.script.tcl` and read the checkpoint `pre_{step}.db`. -/
def genus_do_pre_steps (first_name : String) (st : PState) : PState :=
  let st1 :=
    { st with
      output := st.output ++
        ["\n" ++ hashes78, "# Starting stage: " ++ first_name, hashes78 ++ "\n"] }
  if first_name ≠ "init_environment" then
    { st1 with
      output := st1.output ++
        ["source pre_" ++ first_name ++ ".script.tcl",
         "read_db pre_" ++ first_name ++ ".db"],
      events := st1.events ++ [Event.restore ("pre_" ++ first_name ++ ".db")] }
  else st1

/-- `Genus.do_between_steps`: write the checkpoint `pre_{next}.db` (with a
setup script) and append a banner for the next stage. -/
def genus_do_between_steps (_prev next_name : String) (st : PState) : PState :=
  { st with
    output := st.output ++
      ["write_db -all_root_attributes -script pre_" ++ next_name ++
        ".setup.tcl pre_" ++ next_name ++ ".db",
       hashes78, "# Starting stage: " ++ next_name, hashes78],
    events := st.events ++ [Event.persist ("pre_" ++ next_name ++ ".db")] }

/-- `Genus.run_genus`: append `quit`, flush the buffered output to `syn.tcl`,
and (unless generate-only mode is set) invoke the Genus binary; returns
`True` unconditionally. -/
def run_genus (env : GenusEnv) (st : PState) : PState × Bool :=
  let st1 := { st with output := st.output ++ ["quit"] }
  let syn_tcl := env.runDir ++ "/syn.tcl"
  let args := [env.genusBin, "-abort_on_error", "-f", syn_tcl, "-no_gui"]
  if env.generateOnly then
    ({ st1 with events := st1.events ++ [Event.flushOutput syn_tcl] }, true)
  else
    ({ st1 with
        events := st1.events ++
          [Event.flushOutput syn_tcl,
           Event.runExecutable args (env.execResult args)] },
     true)

/-- `Genus.do_post_steps` just runs `run_genus`. -/
def genus_do_post_steps (env : GenusEnv) (st : PState) : PState × Bool :=
  run_genus env st

/-- The Genus plugin's hooks. -/
def genusHooks (env : GenusEnv) : Hooks :=
  ⟨env.execResult, genus_do_pre_steps, genus_do_between_steps,
    genus_do_post_steps env⟩

/-- A full Genus pipeline run starting at the step with the given index. -/
def genusRun (env : GenusEnv) (steps : List StepEff) (start_index : Nat) :
    PState × Bool :=
  runPipeline (genusHooks env) steps start_index

/-- The step-name sequence of `Genus.steps`. -/
def genusStepNames : List String :=
  ["init_environment", "syn_generic", "syn_map", "write_regs",
   "generate_reports", "write_outputs"]

/-- Python's `str.split(sep)` on a single-character separator, on the
character list of the string. -/
def pySplit (sep : Char) : List Char → List (List Char)
  | [] => [[]]
  | c :: cs =>
    if c = sep then [] :: pySplit sep cs
    else
      match pySplit sep cs with
      | [] => [[c]]
      | p :: ps => (c :: p) :: ps

/-- Python's `int` on a string of decimal digits: the decimal value. -/
def pyInt (ds : List Char) : Nat :=
  ds.foldl (fun a c => 10 * a + (c.toNat - Char.toNat '0')) 0

/-- `CadenceTool.version_number` (`tool/tool.py`): parse versions of the shape
`MAJOR_ISRMINOR`. `main_version = int(version.split("_")[0])`; if `"_" in
version` then `minor_version = int(version.split("_")[1][3:])` else `0`;
returns `main_version * 100 + minor_version`. -/
def version_number (version : String) : Nat :=
  let parts := pySplit '_' version.data
  let main_version := pyInt (parts.headD [])
  let minor_version :=
    if '_' ∈ version.data then pyInt ((parts.getD 1 []).drop 3) else 0
  main_version * 100 + minor_version

/-- Errors a Python `str.format` call can raise: `KeyError` for a placeholder
missing from the keyword arguments, `ValueError` for an unterminated field. -/
inductive PyError where
  | keyError : String → PyError
  | valueError : PyError
deriving Repr, DecidableEq

/-- Scanner for Python's `str.format` on the placeholder syntax used in this
repository (plain `\x7bNAME\x7d` fields, no conversions, no format specs, no
escaped braces).  The first component is `none` while scanning literal text
and `some acc` (accumulated field characters, reversed) inside a field.
A field name absent from the keyword arguments raises `KeyError(name)`. -/
def fmtAux (kwargs : List (String × String)) :
    Option (List Char) → List Char → Except PyError (List Char)
  | none, [] => Except.ok []
  | some _, [] => Except.error PyError.valueError
  | none, c :: cs =>
    if c = '{' then fmtAux kwargs (some []) cs
    else (fmtAux kwargs none cs).map (fun t => c :: t)
  | some acc, c :: cs =>
    if c = '}' then
      match kwargs.lookup (String.mk acc.reverse) with
      | none => Except.error (PyError.keyError (String.mk acc.reverse))
      | some v => (fmtAux kwargs none cs).map (fun t => v.data ++ t)
    else fmtAux kwargs (some (c :: acc)) cs

/-- Python's `template.format(**kwargs)` for the subset described at
`fmtAux`. -/
def pyFormat (template : String) (kwargs : List (String × String)) :
    Except PyError String :=
  (fmtAux kwargs none template.data).map String.mk

/-- `MMMCCornerType` of hammer-vlsi, as matched in `Joules.init_technology`. -/
inductive MMMCCornerType where
  | setup
  | hold
  | extra
deriving Repr, DecidableEq

/-- An MMMC corner as seen by `Joules.init_technology`: its type and the
timing-library string `get_timing_libs(corner)` yields for it. -/
structure MMMCCorner where
  name : String
  ctype : MMMCCornerType
  libs : String
deriving Repr, DecidableEq

/-- `Joules.init_technology` (`power/joules/__init__.py`): if some corner has
type `Extra`, emit `read_libs` for the first such corner (placeholder
`EXTRA_LIB`, keyword `EXTRA_LIB`); otherwise emit `read_libs` for the first
`Setup` corner — whose format string uses placeholder `SETUP_LIBS` but keyword
argument `SETUP_LIB`.  The result is the list of emitted commands, or the
Python exception the `format` call raises. -/
def init_technology (corners : List MMMCCorner) :
    Except PyError (List String) :=
  if (corners.map (fun c => c.ctype)).contains MMMCCornerType.extra then
    match corners.find? (fun c => c.ctype == MMMCCornerType.extra) with
    | some corner =>
      (pyFormat "read_libs \x7bEXTRA_LIB\x7d -infer_memory_cells"
        [("EXTRA_LIB", corner.libs)]).map (fun cmd => [cmd])
    | none => Except.ok []
  else
    match corners.find? (fun c => c.ctype == MMMCCornerType.setup) with
    | some corner =>
      (pyFormat "read_libs \x7bSETUP_LIBS\x7d -infer_memory_cells"
        [("SETUP_LIB", corner.libs)]).map (fun cmd => [cmd])
    | none => Except.ok []

/-- Example environment for concrete runs: every symlink attempt succeeds and
every external process exits successfully. -/
def exEnv : InnovusEnv :=
  ⟨"/run", "innovus", fun _ _ => LinkResult.ok, fun _ => true⟩

/-- A concrete Innovus flat-mode run: the step effects of `Innovus.steps` for
a representative configuration (top module `top`, run directory `/run`, no
clock ports ignored — the two clock-tree commands are included, empty
dont-use list, empty power spec).  Only `write_design` performs a
`run_executable` call (the `chmod +x` from `write_design_execs`). -/
def exSteps : List StepEff :=
  [⟨"init_design",
    ["set_db design_process_node 28",
     "set_multi_cpu_usage -local_cpu 4",
     "read_physical -lef \x7b tech.lef \x7d",
     "read_mmmc /run/mmmc.tcl",
     "read_netlist \x7b /work/top.v \x7d -top top",
     "init_design",
     "set_db design_flow_effort standard"], [], true⟩,
   ⟨"floorplan_design", ["source -echo -verbose /run/floorplan.tcl"], [], true⟩,
   ⟨"place_tap_cells", [], [], true⟩,
   ⟨"power_straps", ["source -echo -verbose /run/power_straps.tcl"], [], true⟩,
   ⟨"place_opt_design", ["place_opt_design"], [], true⟩,
   ⟨"clock_tree",
    ["create_clock_tree_spec",
     "ccopt_design -hold -report_dir hammer_cts_debug -report_prefix hammer_cts"],
    [], true⟩,
   ⟨"route_design", ["route_design"], [], true⟩,
   ⟨"opt_design", ["opt_design -post_route -setup -hold"], [], true⟩,
   ⟨"write_design",
    ["write_db top_FINAL -def -verilog",
     "write_netlist /run/top.lvs.v -top_module_first -top_module top -exclude_leaf_cells -phys -flat",
     "write_stream -mode ALL -unit 1000  -output_macros /run/top.gds"],
    write_design_execs "/run", true⟩]

/-- `exSteps` with the `clock_tree` action failing after its first append. -/
def exFailBad : StepEff :=
  ⟨"clock_tree", ["create_clock_tree_spec"], [], false⟩

/-- The steps before the failing step in the failing example run. -/
def exFailPre : List StepEff := exSteps.take 5

/-- The steps after the failing step in the failing example run. -/
def exFailRest : List StepEff := exSteps.drop 6

/-- A concrete failing Innovus run: `clock_tree` fails mid-step. -/
def exFailSteps : List StepEff := exFailPre ++ exFailBad :: exFailRest

/-- The name of the first step of a list, with the name of a designated
following step as fallback for the empty list. -/
def headName : List StepEff → StepEff → String
  | [], bad => bad.name
  | s :: _, _ => s.name

/-- The name of the first step of a list (`""` for the empty list). -/
def headNameL : List StepEff → String
  | [] => ""
  | s :: _ => s.name

/-- The `(prev, next)` name pairs of the inter-step boundaries of a step
list. -/
def boundaryPairs : List StepEff → List (String × String)
  | [] => []
  | s :: rest =>
    (match rest with
      | [] => []
      | next :: _ => [(s.name, next.name)]) ++ boundaryPairs rest

/-- The `(prev, next)` boundary pairs of a name list. -/
def namePairs : List String → List (String × String)
  | [] => []
  | n :: rest =>
    (match rest with
      | [] => []
      | m :: _ => [(n, m)]) ++ namePairs rest

/-- Predicted output-buffer contribution of an all-success run of a step
list under the Innovus hooks: each step's appends followed by the write-ahead
checkpoint command for the next step. -/
def innovusOkOutput : List StepEff → List String
  | [] => []
  | s :: rest =>
    s.appends ++
      (match rest with
        | [] => []
        | next :: _ => ["write_db pre_" ++ next.name]) ++
      innovusOkOutput rest

/-- Predicted event-trace contribution of an all-success run of a step list
under the Innovus hooks. -/
def innovusOkEvents (hooks : Hooks) : List StepEff → List Event
  | [] => []
  | s :: rest =>
    Event.actionRun s.name ::
      s.execs.map (fun a => Event.runExecutable a (hooks.execResult a)) ++
      (match rest with
        | [] => []
        | next :: _ => [Event.persist ("pre_" ++ next.name)]) ++
      innovusOkEvents hooks rest

/-- Predicted output-buffer contribution of a run whose steps `pre` all
succeed and whose next step `bad` fails. -/
def innovusFailOutput : List StepEff → StepEff → List String
  | [], bad => bad.appends
  | s :: rest, bad =>
    s.appends ++ ["write_db pre_" ++ headName rest bad] ++
      innovusFailOutput rest bad

/-- Predicted event-trace contribution of a run whose steps `pre` all succeed
and whose next step `bad` fails. -/
def innovusFailEvents (hooks : Hooks) : List StepEff → StepEff → List Event
  | [], bad =>
    Event.actionRun bad.name ::
      bad.execs.map (fun a => Event.runExecutable a (hooks.execResult a))
  | s :: rest, bad =>
    Event.actionRun s.name ::
      s.execs.map (fun a => Event.runExecutable a (hooks.execResult a)) ++
      Event.persist ("pre_" ++ headName rest bad) ::
      innovusFailEvents hooks rest bad

/-- Predicted transition records of a run whose steps `pre` all succeed and
whose next step `bad` fails. -/
def failBoundaries : List StepEff → StepEff → List (String × String)
  | [], _ => []
  | s :: rest, bad => (s.name, headName rest bad) :: failBoundaries rest bad

/-- Project the checkpoint name out of a restore event. -/
def restoreOf : Event → Option String
  | Event.restore s => some s
  | _ => none

/-- The checkpoint names restored during a run, in order. -/
def evRestores (st : PState) : List String := st.events.filterMap restoreOf

/-- Project the checkpoint name out of a persist event. -/
def persistOf : Event → Option String
  | Event.persist s => some s
  | _ => none

/-- The checkpoint names persisted during a run, in order. -/
def evPersists (st : PState) : List String := st.events.filterMap persistOf

theorem filterMap_const_none {α β : Type} (l : List α) :
    l.filterMap (fun _ => (none : Option β)) = [] := by
  induction l with
  | nil => rfl
  | cons a l ih => simp [List.filterMap_cons, ih]

theorem restoreOf_eq_some {e : Event} {x : String} :
    restoreOf e = some x ↔ e = Event.restore x := by
  cases e <;> simp [restoreOf]

theorem persistOf_eq_some {e : Event} {x : String} :
    persistOf e = some x ↔ e = Event.persist x := by
  cases e <;> simp [persistOf]

theorem mem_evRestores {st : PState} {x : String} :
    x ∈ evRestores st ↔ Event.restore x ∈ st.events := by
  simp [evRestores, List.mem_filterMap, restoreOf_eq_some]

theorem mem_evPersists {st : PState} {x : String} :
    x ∈ evPersists st ↔ Event.persist x ∈ st.events := by
  simp [evPersists, List.mem_filterMap, persistOf_eq_some]

theorem evRestores_execStep (hooks : Hooks) (s : StepEff) (st : PState) :
    evRestores (execStep hooks s st) = evRestores st := by
  simp [execStep, evRestores, List.filterMap_append, List.filterMap_cons,
    restoreOf, List.filterMap_map, Function.comp, filterMap_const_none]

theorem evRestores_innovus_between (p n : String) (st : PState) :
    evRestores (innovus_do_between_steps p n st) = evRestores st := by
  simp [innovus_do_between_steps, evRestores, List.filterMap_append,
    List.filterMap_cons, restoreOf]

theorem evRestores_innovusSymlinks (env : InnovusEnv) :
    ∀ (ps : List (String × String)) (st : PState),
      evRestores (innovusSymlinks env ps st) = evRestores st := by
  intro ps
  induction ps with
  | nil => intro st; rfl
  | cons p rest ih =>
    intro st
    obtain ⟨prev, nxt⟩ := p
    unfold innovusSymlinks
    cases env.linkResult (env.runDir ++ "/pre_" ++ nxt) (env.runDir ++ "/post_" ++ prev) with
    | ok =>
      rw [ih]
      simp [evRestores, List.filterMap_append, List.filterMap_cons, restoreOf]
    | eexist => rfl
    | otherErr =>
      simp [evRestores, List.filterMap_append, List.filterMap_cons, restoreOf]

theorem evRestores_run_innovus (env : InnovusEnv) (st : PState) :
    evRestores (run_innovus env st).1 = evRestores st := by
  simp [run_innovus, evRestores, List.filterMap_append, List.filterMap_cons,
    restoreOf]

theorem evRestores_innovus_doPost (env : InnovusEnv) (st : PState) :
    evRestores (innovus_do_post_steps env st).1 = evRestores st := by
  rw [innovus_do_post_steps, evRestores_run_innovus, evRestores_innovusSymlinks]

theorem evRestores_genus_between (p n : String) (st : PState) :
    evRestores (genus_do_between_steps p n st) = evRestores st := by
  simp [genus_do_between_steps, evRestores, List.filterMap_append,
    List.filterMap_cons, restoreOf]

theorem evRestores_genus_doPost (env : GenusEnv) (st : PState) :
    evRestores (genus_do_post_steps env st).1 = evRestores st := by
  unfold genus_do_post_steps run_genus
  by_cases h : env.generateOnly <;>
    simp [h, evRestores, List.filterMap_append, List.filterMap_cons, restoreOf]

theorem runFrom_nil (hooks : Hooks) (st : PState) :
    runFrom hooks [] st = hooks.doPost st := rfl

theorem runFrom_cons (hooks : Hooks) (s : StepEff) (rest : List StepEff)
    (st : PState) :
    runFrom hooks (s :: rest) st =
      if s.ok then
        runFrom hooks rest
          (match rest with
            | [] => execStep hooks s st
            | next :: _ => hooks.doBetween s.name next.name (execStep hooks s st))
      else (execStep hooks s st, false) := rfl

theorem evRestores_runFrom (hooks : Hooks)
    (hb : ∀ p n st, evRestores (hooks.doBetween p n st) = evRestores st)
    (hp : ∀ st, evRestores (hooks.doPost st).1 = evRestores st) :
    ∀ (steps : List StepEff) (st : PState),
      evRestores (runFrom hooks steps st).1 = evRestores st := by
  intro steps
  induction steps with
  | nil => intro st; exact hp st
  | cons s rest ih =>
    intro st
    rw [runFrom_cons]
    by_cases hs : s.ok = true
    · rw [if_pos hs]
      cases rest with
      | nil => rw [ih, evRestores_execStep]
      | cons next r' => rw [ih, hb, evRestores_execStep]
    · rw [if_neg hs]
      exact evRestores_execStep hooks s st

theorem runPipeline_eq_runFrom (hooks : Hooks) (steps : List StepEff) (k : Nat)
    (h : steps.drop k ≠ []) :
    runPipeline hooks steps k =
      runFrom hooks (steps.drop k)
        (hooks.doPre (headNameL (steps.drop k)) ⟨[], [], []⟩) := by
  unfold runPipeline
  cases hd : steps.drop k with
  | nil => exact absurd hd h
  | cons f r => simp [headNameL]

theorem run_innovus_eq (env : InnovusEnv) (st : PState) :
    run_innovus env st =
      ({ st with
          output := st.output ++ ["exit"],
          events := st.events ++
            [Event.flushOutput (env.runDir ++ "/par.tcl"),
             Event.runExecutable
               [env.innovusBin, "-nowin", "-common_ui", "-files",
                env.runDir ++ "/par.tcl"]
               (env.execResult
                 [env.innovusBin, "-nowin", "-common_ui", "-files",
                  env.runDir ++ "/par.tcl"])] },
       true) := rfl

theorem innovusSymlinks_allOk (env : InnovusEnv)
    (hfs : ∀ a b, env.linkResult a b = LinkResult.ok) :
    ∀ (ps : List (String × String)) (st : PState),
      innovusSymlinks env ps st =
        { st with
          events := st.events ++
            ps.map (fun p =>
              Event.symlinkCreate (env.runDir ++ "/pre_" ++ p.2)
                (env.runDir ++ "/post_" ++ p.1)) } := by
  intro ps
  induction ps with
  | nil => intro st; simp [innovusSymlinks]
  | cons p rest ih =>
    intro st
    obtain ⟨prev, nxt⟩ := p
    unfold innovusSymlinks
    rw [hfs, ih]
    simp

theorem innovus_doPost_snd (env : InnovusEnv) (st : PState) :
    (innovus_do_post_steps env st).2 = true := rfl

theorem genus_doPost_snd (env : GenusEnv) (st : PState) :
    (genus_do_post_steps env st).2 = true := by
  unfold genus_do_post_steps run_genus
  by_cases h : env.generateOnly <;> simp [h]

theorem runFrom_snd (hooks : Hooks)
    (hp : ∀ st, (hooks.doPost st).2 = true) :
    ∀ (steps : List StepEff) (st : PState),
      (runFrom hooks steps st).2 = steps.all (fun s => s.ok) := by
  intro steps
  induction steps with
  | nil => intro st; simp [runFrom_nil, hp]
  | cons s rest ih =>
    intro st
    rw [runFrom_cons]
    by_cases hs : s.ok = true
    · rw [if_pos hs]
      cases rest with
      | nil => simp [ih, hs]
      | cons next r' => simp [ih, hs]
    · rw [if_neg hs]
      simp at hs
      simp [hs]

theorem runFrom_innovus_ok (env : InnovusEnv) :
    ∀ (steps : List StepEff) (st : PState), (∀ s ∈ steps, s.ok = true) →
      runFrom (innovusHooks env) steps st =
        innovus_do_post_steps env
          ⟨st.output ++ innovusOkOutput steps,
           st.transitions ++ boundaryPairs steps,
           st.events ++ innovusOkEvents (innovusHooks env) steps⟩ := by
  intro steps
  induction steps with
  | nil =>
    intro st _
    rw [runFrom_nil]
    simp [innovusOkOutput, boundaryPairs, innovusOkEvents, innovusHooks]
  | cons s rest ih =>
    intro st hok
    have hs : s.ok = true := hok s (List.mem_cons_self s rest)
    rw [runFrom_cons, if_pos hs]
    cases rest with
    | nil =>
      rw [runFrom_nil]
      simp [innovusHooks, execStep, innovusOkOutput, boundaryPairs,
        innovusOkEvents]
    | cons next r' =>
      rw [ih _ (fun t ht => hok t (List.mem_cons_of_mem s ht))]
      simp [innovusHooks, execStep, innovus_do_between_steps, innovusOkOutput,
        boundaryPairs, innovusOkEvents]

theorem runFrom_singleton (hooks : Hooks) (s : StepEff) (st : PState) :
    runFrom hooks [s] st =
      if s.ok then hooks.doPost (execStep hooks s st)
      else (execStep hooks s st, false) := rfl

theorem runFrom_cons_cons (hooks : Hooks) (s next : StepEff)
    (r' : List StepEff) (st : PState) :
    runFrom hooks (s :: next :: r') st =
      if s.ok then
        runFrom hooks (next :: r')
          (hooks.doBetween s.name next.name (execStep hooks s st))
      else (execStep hooks s st, false) := rfl

theorem runFrom_cons_notok (hooks : Hooks) (s : StepEff) (rest : List StepEff)
    (st : PState) (h : s.ok = false) :
    runFrom hooks (s :: rest) st = (execStep hooks s st, false) := by
  cases rest with
  | nil => rw [runFrom_singleton, if_neg (by simp [h])]
  | cons n r => rw [runFrom_cons_cons, if_neg (by simp [h])]

theorem runFrom_cons_cons_ok (hooks : Hooks) (s next : StepEff)
    (r' : List StepEff) (st : PState) (h : s.ok = true) :
    runFrom hooks (s :: next :: r') st =
      runFrom hooks (next :: r')
        (hooks.doBetween s.name next.name (execStep hooks s st)) := by
  rw [runFrom_cons_cons, if_pos h]

theorem runFrom_innovus_fail (env : InnovusEnv) :
    ∀ (pre : List StepEff) (bad : StepEff) (rest : List StepEff) (st : PState),
      (∀ s ∈ pre, s.ok = true) → bad.ok = false →
      runFrom (innovusHooks env) (pre ++ bad :: rest) st =
        (⟨st.output ++ innovusFailOutput pre bad,
          st.transitions ++ failBoundaries pre bad,
          st.events ++ innovusFailEvents (innovusHooks env) pre bad⟩,
         false) := by
  intro pre
  induction pre with
  | nil =>
    intro bad rest st _ hbad
    rw [List.nil_append, runFrom_cons_notok _ _ _ _ hbad]
    simp [execStep, innovusFailOutput, failBoundaries, innovusFailEvents,
      innovusHooks]
  | cons s pre' ih =>
    intro bad rest st hpre hbad
    have hs : s.ok = true := hpre s (List.mem_cons_self s pre')
    have hpre' : ∀ t ∈ pre', t.ok = true :=
      fun t ht => hpre t (List.mem_cons_of_mem s ht)
    cases pre' with
    | nil =>
      rw [List.cons_append, List.nil_append, runFrom_cons_cons_ok _ _ _ _ _ hs,
        runFrom_cons_notok _ _ _ _ hbad]
      simp [innovusHooks, execStep, innovus_do_between_steps, headName,
        innovusFailOutput, failBoundaries, innovusFailEvents]
    | cons p2 pre'' =>
      rw [List.cons_append, List.cons_append,
        runFrom_cons_cons_ok _ _ _ _ _ hs, ← List.cons_append,
        ih bad rest _ hpre' hbad]
      simp [innovusHooks, execStep, innovus_do_between_steps, headName,
        innovusFailOutput, failBoundaries, innovusFailEvents]

theorem drop_ne_nil_of_map {steps : List StepEff} {names : List String} {k : Nat}
    (hmap : steps.map StepEff.name = names) (hk : k < names.length) :
    steps.drop k ≠ [] := by
  have hk' : k < steps.length := by
    rw [← List.length_map steps StepEff.name, hmap]; exact hk
  intro hd
  have := List.drop_eq_getElem_cons hk'
  rw [hd] at this
  exact List.cons_ne_nil _ _ this.symm

theorem headNameL_drop {steps : List StepEff} {names : List String} {k : Nat}
    (hmap : steps.map StepEff.name = names) (hk : k < names.length) :
    headNameL (steps.drop k) = names.get ⟨k, hk⟩ := by
  have hmd : (steps.drop k).map StepEff.name = names.drop k := by
    rw [List.map_drop, hmap]
  rw [List.drop_eq_getElem_cons hk] at hmd
  cases hd : steps.drop k with
  | nil =>
    rw [hd] at hmd
    simp at hmd
    exact absurd hmd (by omega)
  | cons f r =>
    rw [hd, List.map_cons] at hmd
    have := (List.cons.injEq _ _ _ _).mp hmd
    simp [headNameL, this.1, List.get_eq_getElem]

theorem innovus_headD (mode : HierarchicalMode) :
    (innovusStepNames mode).headD "" = "init_design" := by
  cases mode <;> rfl

theorem innovus_get_ne_init_design (mode : HierarchicalMode) :
    ∀ (j : Fin (innovusStepNames mode).length),
      j.val ≠ 0 → (innovusStepNames mode).get j ≠ "init_design" := by
  cases mode <;> decide

theorem genus_get_ne_init_environment :
    ∀ (j : Fin genusStepNames.length),
      j.val ≠ 0 → genusStepNames.get j ≠ "init_environment" := by
  decide

theorem evRestores_innovus_pre (n : String) :
    evRestores (innovus_do_pre_steps n ⟨[], [], []⟩) =
      if n = "init_design" then [] else ["pre_" ++ n] := by
  by_cases h : n = "init_design" <;>
    simp [innovus_do_pre_steps, h, evRestores, List.filterMap_cons, restoreOf]

theorem evRestores_genus_pre (n : String) :
    evRestores (genus_do_pre_steps n ⟨[], [], []⟩) =
      if n = "init_environment" then [] else ["pre_" ++ n ++ ".db"] := by
  by_cases h : n = "init_environment" <;>
    simp [genus_do_pre_steps, h, evRestores, List.filterMap_cons, restoreOf]

/-- C1: for every Innovus step sequence (any hierarchical mode) and every
Genus step sequence, and every step name `n` in it, running the pipeline with
`start_at = n` emits the checkpoint-restore command for `n` (`read_db pre_{n}`
for Innovus, `read_db pre_{n}.db` for Genus) if and only if `n` is not the
first element of the sequence. -/
theorem c1_restore_iff_not_first :
    (∀ (mode : HierarchicalMode) (env : InnovusEnv) (steps : List StepEff)
       (k : Nat) (hk : k < (innovusStepNames mode).length),
       steps.map StepEff.name = innovusStepNames mode →
       (Event.restore ("pre_" ++ (innovusStepNames mode).get ⟨k, hk⟩) ∈
           (innovusRun env steps k).1.events ↔
         (innovusStepNames mode).get ⟨k, hk⟩ ≠ (innovusStepNames mode).headD ""))
    ∧ (∀ (env : GenusEnv) (steps : List StepEff) (k : Nat)
       (hk : k < genusStepNames.length),
       steps.map StepEff.name = genusStepNames →
       (Event.restore ("pre_" ++ genusStepNames.get ⟨k, hk⟩ ++ ".db") ∈
           (genusRun env steps k).1.events ↔
         genusStepNames.get ⟨k, hk⟩ ≠ genusStepNames.headD "")) := by
  constructor
  · intro mode env steps k hk hmap
    rw [innovusRun, runPipeline_eq_runFrom _ _ _ (drop_ne_nil_of_map hmap hk),
      ← mem_evRestores,
      evRestores_runFrom (innovusHooks env)
        (fun p n st => evRestores_innovus_between p n st)
        (fun st => evRestores_innovus_doPost env st),
      headNameL_drop hmap hk, innovus_headD]
    show "pre_" ++ (innovusStepNames mode).get ⟨k, hk⟩ ∈
        evRestores (innovus_do_pre_steps ((innovusStepNames mode).get ⟨k, hk⟩)
          ⟨[], [], []⟩) ↔ _
    rw [evRestores_innovus_pre]
    by_cases hg : (innovusStepNames mode).get ⟨k, hk⟩ = "init_design" <;>
      simp [hg]
  · intro env steps k hk hmap
    rw [genusRun, runPipeline_eq_runFrom _ _ _ (drop_ne_nil_of_map hmap hk),
      ← mem_evRestores,
      evRestores_runFrom (genusHooks env)
        (fun p n st => evRestores_genus_between p n st)
        (fun st => evRestores_genus_doPost env st),
      headNameL_drop hmap hk]
    show "pre_" ++ genusStepNames.get ⟨k, hk⟩ ++ ".db" ∈
        evRestores (genus_do_pre_steps (genusStepNames.get ⟨k, hk⟩)
          ⟨[], [], []⟩) ↔ _
    rw [evRestores_genus_pre]
    by_cases hg : genusStepNames.get ⟨k, hk⟩ = "init_environment" <;>
      simp [hg, genusStepNames]

theorem evPersists_innovusSymlinks (env : InnovusEnv) :
    ∀ (ps : List (String × String)) (st : PState),
      evPersists (innovusSymlinks env ps st) = evPersists st := by
  intro ps
  induction ps with
  | nil => intro st; rfl
  | cons p rest ih =>
    intro st
    obtain ⟨prev, nxt⟩ := p
    unfold innovusSymlinks
    cases env.linkResult (env.runDir ++ "/pre_" ++ nxt)
        (env.runDir ++ "/post_" ++ prev) with
    | ok =>
      rw [ih]
      simp [evPersists, List.filterMap_append, List.filterMap_cons, persistOf]
    | eexist => rfl
    | otherErr =>
      simp [evPersists, List.filterMap_append, List.filterMap_cons, persistOf]

theorem evPersists_run_innovus (env : InnovusEnv) (st : PState) :
    evPersists (run_innovus env st).1 = evPersists st := by
  simp [run_innovus, evPersists, List.filterMap_append, List.filterMap_cons,
    persistOf]

theorem evPersists_innovus_doPost (env : InnovusEnv) (st : PState) :
    evPersists (innovus_do_post_steps env st).1 = evPersists st := by
  rw [innovus_do_post_steps, evPersists_run_innovus, evPersists_innovusSymlinks]

theorem evPersists_innovus_pre (n : String) :
    evPersists (innovus_do_pre_steps n ⟨[], [], []⟩) = [] := by
  by_cases h : n = "init_design" <;>
    simp [innovus_do_pre_steps, h, evPersists, List.filterMap_cons, persistOf]

theorem filterMap_persistOf_okEvents (hooks : Hooks) :
    ∀ (steps : List StepEff),
      (innovusOkEvents hooks steps).filterMap persistOf =
        (boundaryPairs steps).map (fun p => "pre_" ++ p.2) := by
  intro steps
  induction steps with
  | nil => rfl
  | cons s rest ih =>
    cases rest with
    | nil =>
      simp [innovusOkEvents, boundaryPairs, List.filterMap_cons,
        List.filterMap_append, persistOf, List.filterMap_map, Function.comp,
        filterMap_const_none]
    | cons next r' =>
      rw [innovusOkEvents, boundaryPairs]
      simp only [List.filterMap_cons, List.filterMap_append, persistOf,
        List.filterMap_map, Function.comp]
      rw [ih]
      simp [persistOf, filterMap_const_none, List.filterMap_cons]

theorem boundaryPairs_eq_namePairs :
    ∀ (steps : List StepEff),
      boundaryPairs steps = namePairs (steps.map StepEff.name) := by
  intro steps
  induction steps with
  | nil => rfl
  | cons s rest ih =>
    cases rest with
    | nil => rfl
    | cons next r' =>
      rw [boundaryPairs, ih]
      simp [namePairs]

theorem namePairs_getElem? :
    ∀ (l : List String) (k : Nat) (hk : k + 1 < l.length),
      (namePairs l).get? k = some (l.get ⟨k, by omega⟩, l.get ⟨k + 1, hk⟩) := by
  intro l
  induction l with
  | nil => intro k hk; simp at hk
  | cons n rest ih =>
    intro k hk
    cases rest with
    | nil => simp at hk
    | cons m r' =>
      cases k with
      | zero => simp [namePairs]
      | succ k' =>
        have hk' : k' + 1 < (m :: r').length := by
          simp at hk ⊢; omega
        rw [namePairs]
        simp only [List.cons_append, List.nil_append, List.get?_cons_succ]
        rw [ih k' hk']
        simp

/-- C2: write-ahead naming and restore naming agree.  In every all-success
Innovus run from the start, the sequence of persisted checkpoint names is
`pre_{next}` for the `(prev, next)` transition pairs in order; the boundary
after step `k` carries the pair `(S[k], S[k+1])`, so the checkpoint persisted
there is named `pre_{S[k+1]}`; and a later run starting at step `k+1`
restores exactly the checkpoint named `pre_{S[k+1]}`. -/
theorem c2_checkpoint_roundtrip :
    ∀ (mode : HierarchicalMode) (env : InnovusEnv) (steps : List StepEff),
      steps.map StepEff.name = innovusStepNames mode →
      (∀ s ∈ steps, s.ok = true) →
      ∀ (k : Nat) (hk1 : k + 1 < (innovusStepNames mode).length),
        evPersists (innovusRun env steps 0).1 =
          (boundaryPairs steps).map (fun p => "pre_" ++ p.2)
        ∧ (boundaryPairs steps).get? k =
            some ((innovusStepNames mode).get ⟨k, by omega⟩,
              (innovusStepNames mode).get ⟨k + 1, hk1⟩)
        ∧ evRestores (innovusRun env steps (k + 1)).1 =
            ["pre_" ++ (innovusStepNames mode).get ⟨k + 1, hk1⟩] := by
  intro mode env steps hmap hok k hk1
  have h0 : (0 : Nat) < (innovusStepNames mode).length := by omega
  refine ⟨?_, ?_, ?_⟩
  · rw [innovusRun, runPipeline_eq_runFrom _ _ _ (drop_ne_nil_of_map hmap h0),
      List.drop_zero, runFrom_innovus_ok env steps _ hok,
      evPersists_innovus_doPost]
    have hpre := evPersists_innovus_pre (headNameL steps)
    simp only [evPersists] at hpre ⊢
    simp only [innovusHooks] at hpre ⊢
    rw [List.filterMap_append, hpre, List.nil_append,
      filterMap_persistOf_okEvents]
  · rw [boundaryPairs_eq_namePairs, hmap]
    exact namePairs_getElem? _ k hk1
  · rw [innovusRun, runPipeline_eq_runFrom _ _ _ (drop_ne_nil_of_map hmap hk1),
      evRestores_runFrom (innovusHooks env)
        (fun p n st => evRestores_innovus_between p n st)
        (fun st => evRestores_innovus_doPost env st),
      headNameL_drop hmap hk1]
    show evRestores (innovus_do_pre_steps
        ((innovusStepNames mode).get ⟨k + 1, hk1⟩) ⟨[], [], []⟩) = _
    rw [evRestores_innovus_pre,
      if_neg (innovus_get_ne_init_design mode ⟨k + 1, hk1⟩ (by simp))]

theorem transitions_innovusSymlinks (env : InnovusEnv) :
    ∀ (ps : List (String × String)) (st : PState),
      (innovusSymlinks env ps st).transitions = st.transitions := by
  intro ps
  induction ps with
  | nil => intro st; rfl
  | cons p rest ih =>
    intro st
    obtain ⟨prev, nxt⟩ := p
    unfold innovusSymlinks
    cases env.linkResult (env.runDir ++ "/pre_" ++ nxt)
        (env.runDir ++ "/post_" ++ prev) with
    | ok => rw [ih]
    | eexist => rfl
    | otherErr => rfl

theorem transitions_innovus_doPost (env : InnovusEnv) (st : PState) :
    (innovus_do_post_steps env st).1.transitions = st.transitions := by
  rw [innovus_do_post_steps, run_innovus_eq]
  exact transitions_innovusSymlinks env st.transitions st

theorem transitions_innovus_pre (n : String) :
    (innovus_do_pre_steps n ⟨[], [], []⟩).transitions = [] := by
  by_cases h : n = "init_design" <;> simp [innovus_do_pre_steps, h]

theorem boundaryPairs_length :
    ∀ (l : List StepEff), (boundaryPairs l).length = l.length - 1 := by
  intro l
  induction l with
  | nil => rfl
  | cons s rest ih =>
    cases rest with
    | nil => rfl
    | cons next r' =>
      rw [boundaryPairs]
      show ([(s.name, next.name)] ++ boundaryPairs (next :: r')).length = _
      rw [List.length_append, ih]
      simp
      omega

theorem drop_ne_nil_of_lt {steps : List StepEff} {k : Nat}
    (hk : k < steps.length) : steps.drop k ≠ [] := by
  intro h
  have := List.drop_eq_nil_iff.mp h
  omega

/-- C5: for every all-success Innovus run over step sequence `S` starting at
index `k`, the transition history is exactly the list of `(prev, next)` pairs
of the boundaries of the executed suffix (one record per boundary crossed,
none for boundaries skipped by starting mid-pipeline), and its length is
`len(S) - k - 1`. -/
theorem c5_transition_history :
    ∀ (env : InnovusEnv) (steps : List StepEff) (k : Nat),
      k < steps.length → (∀ s ∈ steps, s.ok = true) →
      (innovusRun env steps k).1.transitions = boundaryPairs (steps.drop k)
      ∧ (innovusRun env steps k).1.transitions.length = steps.length - k - 1 := by
  intro env steps k hk hok
  have htr : (innovusRun env steps k).1.transitions =
      boundaryPairs (steps.drop k) := by
    rw [innovusRun, runPipeline_eq_runFrom _ _ _ (drop_ne_nil_of_lt hk),
      runFrom_innovus_ok env (steps.drop k) _
        (fun s hs => hok s (List.mem_of_mem_drop hs)),
      transitions_innovus_doPost]
    show (innovus_do_pre_steps (headNameL (steps.drop k))
        ⟨[], [], []⟩).transitions ++ _ = _
    rw [transitions_innovus_pre, List.nil_append]
  refine ⟨htr, ?_⟩
  rw [htr, boundaryPairs_length, List.length_drop]

theorem string_append_left_cancel {s a b : String} (h : s ++ a = s ++ b) :
    a = b := by
  have h2 : (s ++ a).data = (s ++ b).data := congrArg String.data h
  simp only [String.data_append] at h2
  exact String.ext (List.append_cancel_left h2)

theorem mem_failEvents (hooks : Hooks) :
    ∀ (pre : List StepEff) (bad : StepEff) (e : Event),
      e ∈ innovusFailEvents hooks pre bad →
      (∃ m, e = Event.actionRun m ∧
        (m ∈ pre.map StepEff.name ∨ m = bad.name)) ∨
      (∃ a b, e = Event.runExecutable a b) ∨
      (∃ nm, e = Event.persist ("pre_" ++ nm) ∧
        (nm ∈ pre.map StepEff.name ∨ nm = bad.name)) := by
  intro pre
  induction pre with
  | nil =>
    intro bad e he
    rw [innovusFailEvents] at he
    rcases List.mem_cons.mp he with h | h
    · exact Or.inl ⟨bad.name, h, Or.inr rfl⟩
    · rcases List.mem_map.mp h with ⟨a, _, ha⟩
      exact Or.inr (Or.inl ⟨a, _, ha.symm⟩)
  | cons s rest ih =>
    intro bad e he
    rw [innovusFailEvents] at he
    rcases List.mem_cons.mp he with h | h
    · exact Or.inl ⟨s.name, h, Or.inl (by simp)⟩
    rcases List.mem_append.mp h with h | h
    · rcases List.mem_map.mp h with ⟨a, _, ha⟩
      exact Or.inr (Or.inl ⟨a, _, ha.symm⟩)
    rcases List.mem_cons.mp h with h | h
    · refine Or.inr (Or.inr ⟨headName rest bad, h, ?_⟩)
      cases rest with
      | nil => exact Or.inr rfl
      | cons r1 r2 => exact Or.inl (by simp [headName])
    · rcases ih bad e h with h1 | h1 | h1
      · obtain ⟨m, hm, hmem⟩ := h1
        refine Or.inl ⟨m, hm, ?_⟩
        rcases hmem with hmem | hmem
        · exact Or.inl (by simp [hmem])
        · exact Or.inr hmem
      · exact Or.inr (Or.inl h1)
      · obtain ⟨nm, hnm, hmem⟩ := h1
        refine Or.inr (Or.inr ⟨nm, hnm, ?_⟩)
        rcases hmem with hmem | hmem
        · exact Or.inl (by simp [hmem])
        · exact Or.inr hmem

theorem mem_innovus_pre_events {n : String} {e : Event}
    (he : e ∈ (innovus_do_pre_steps n ⟨[], [], []⟩).events) :
    ∃ x, e = Event.restore x := by
  by_cases h : n = "init_design" <;>
    simp [innovus_do_pre_steps, h] at he
  exact ⟨_, he⟩

theorem headNameL_append (pre : List StepEff) (bad : StepEff)
    (rest : List StepEff) :
    headNameL (pre ++ bad :: rest) = headName pre bad := by
  cases pre <;> rfl

/-- C3: fail-fast.  If the run's executed suffix is `pre ++ bad :: rest` with
all of `pre` succeeding and `bad` failing, then the run's result is failure,
its output buffer is exactly the restore prefix plus the commands appended by
the completed steps, their boundary checkpoints, and the failing step's
partial appends; no action of any step after the failing one runs, no
checkpoint named for the step after the failing one is persisted, and the
finalization flush never happens. -/
theorem c3_fail_fast :
    ∀ (env : InnovusEnv) (steps : List StepEff) (k : Nat)
      (pre : List StepEff) (bad : StepEff) (rest : List StepEff),
      steps.drop k = pre ++ bad :: rest →
      ((pre ++ bad :: rest).map StepEff.name).Nodup →
      (∀ s ∈ pre, s.ok = true) → bad.ok = false →
      (innovusRun env steps k).2 = false
      ∧ (innovusRun env steps k).1.output =
          (innovus_do_pre_steps (headName pre bad) ⟨[], [], []⟩).output ++
            innovusFailOutput pre bad
      ∧ (∀ s ∈ rest,
          Event.actionRun s.name ∉ (innovusRun env steps k).1.events)
      ∧ (∀ t, rest.head? = some t →
          Event.persist ("pre_" ++ t.name) ∉ (innovusRun env steps k).1.events)
      ∧ (∀ p, Event.flushOutput p ∉ (innovusRun env steps k).1.events) := by
  intro env steps k pre bad rest hd hnd hpre hbad
  have hne : steps.drop k ≠ [] := by rw [hd]; simp
  have hrun : innovusRun env steps k =
      (⟨(innovus_do_pre_steps (headName pre bad) ⟨[], [], []⟩).output ++
          innovusFailOutput pre bad,
        (innovus_do_pre_steps (headName pre bad) ⟨[], [], []⟩).transitions ++
          failBoundaries pre bad,
        (innovus_do_pre_steps (headName pre bad) ⟨[], [], []⟩).events ++
          innovusFailEvents (innovusHooks env) pre bad⟩, false) := by
    rw [innovusRun, runPipeline_eq_runFrom _ _ _ hne, hd, headNameL_append]
    exact runFrom_innovus_fail env pre bad rest _ hpre hbad
  rw [List.map_append, List.map_cons, List.nodup_append] at hnd
  obtain ⟨-, hnd2, hdisj⟩ := hnd
  rw [List.nodup_cons] at hnd2
  obtain ⟨hbadnot, -⟩ := hnd2
  rw [hrun]
  refine ⟨rfl, rfl, ?_, ?_, ?_⟩
  · intro s hs hmem
    rcases List.mem_append.mp hmem with h | h
    · obtain ⟨x, hx⟩ := mem_innovus_pre_events h
      simp at hx
    · rcases mem_failEvents _ _ _ _ h with ⟨m, hm, hmm⟩ | ⟨a, b, hab⟩ |
        ⟨nm, hnm, -⟩
      · simp only [Event.actionRun.injEq] at hm
        rcases hmm with hmm | hmm
        · exact hdisj (hm ▸ hmm)
            (List.mem_cons_of_mem _ (List.mem_map_of_mem StepEff.name hs))
        · exact hbadnot
            ((hm.trans hmm) ▸ List.mem_map_of_mem StepEff.name hs)
      · simp at hab
      · simp at hnm
  · intro t ht hmem
    have htr : t ∈ rest := by
      cases rest with
      | nil => simp at ht
      | cons r1 r2 =>
        simp at ht
        rw [← ht]
        exact List.mem_cons_self r1 r2
    rcases List.mem_append.mp hmem with h | h
    · obtain ⟨x, hx⟩ := mem_innovus_pre_events h
      simp at hx
    · rcases mem_failEvents _ _ _ _ h with ⟨m, hm, -⟩ | ⟨a, b, hab⟩ |
        ⟨nm, hnm, hmm⟩
      · simp at hm
      · simp at hab
      · simp only [Event.persist.injEq] at hnm
        have heq : t.name = nm := string_append_left_cancel hnm
        rcases hmm with hmm | hmm
        · exact hdisj (heq ▸ hmm)
            (List.mem_cons_of_mem _ (List.mem_map_of_mem StepEff.name htr))
        · exact hbadnot
            ((heq.trans hmm) ▸ List.mem_map_of_mem StepEff.name htr)
  · intro p hmem
    rcases List.mem_append.mp hmem with h | h
    · obtain ⟨x, hx⟩ := mem_innovus_pre_events h
      simp at hx
    · rcases mem_failEvents _ _ _ _ h with ⟨m, hm, -⟩ | ⟨a, b, hab⟩ |
        ⟨nm, hnm, -⟩ <;> simp_all

/-- Environment whose external processes all report failure. -/
def exEnvFail : InnovusEnv :=
  ⟨"/run", "innovus", fun _ _ => LinkResult.ok, fun _ => false⟩

/-- Environment whose symlink attempts all fail with `EEXIST`. -/
def exEnvEexist : InnovusEnv :=
  ⟨"/run", "innovus", fun _ _ => LinkResult.eexist, fun _ => true⟩

/-- C4 counterexample: in a run where every step succeeds but the finalization
external process exits with failure (the last event records exit status
`false`), `run_innovus` still returns `True`, so the overall run reports
success — the exit status is never checked. -/
theorem c4_counterexample :
    (innovusRun exEnvFail exSteps 0).2 = true
    ∧ (innovusRun exEnvFail exSteps 0).1.events.getLast? =
        some (Event.runExecutable
          ["innovus", "-nowin", "-common_ui", "-files", "/run/par.tcl"]
          false) := by
  constructor
  · decide
  · decide

/-- C4 (amended): the run reports success if and only if every executed
step's action succeeded; the finalization external process's exit status is
ignored (the theorem holds for every `execResult`, in particular one that
reports failure for the finalization invocation). -/
theorem c4_success_iff_steps_ok :
    ∀ (env : InnovusEnv) (steps : List StepEff) (k : Nat),
      steps.drop k ≠ [] →
      (innovusRun env steps k).2 = (steps.drop k).all (fun s => s.ok) := by
  intro env steps k hne
  rw [innovusRun, runPipeline_eq_runFrom _ _ _ hne]
  exact runFrom_snd (innovusHooks env) (innovus_doPost_snd env) _ _

/-- C4 amended-theorem witness: concrete instance with a failing finalization
process. -/
theorem c4_success_iff_steps_ok_witness :
    exSteps.drop 0 ≠ []
    ∧ (innovusRun exEnvFail exSteps 0).2 = (exSteps.drop 0).all (fun s => s.ok) :=
  ⟨by decide, c4_success_iff_steps_ok exEnvFail exSteps 0 (by decide)⟩

/-- Is this event a symlink (alias) creation? -/
def isSymlinkEv : Event → Bool
  | Event.symlinkCreate _ _ => true
  | _ => false

/-- Is this event the flush of the command buffer? -/
def isFlushEv : Event → Bool
  | Event.flushOutput _ => true
  | _ => false

/-- Is this event a `run_executable` invocation? -/
def isRunExe : Event → Bool
  | Event.runExecutable _ _ => true
  | _ => false

/-- C6 counterexample: in a concrete successful full run the first alias
creation happens strictly before the finalization flush (and both occur), so
aliases are not created only after finalization has completed. -/
theorem c6_counterexample :
    (innovusRun exEnv exSteps 0).2 = true
    ∧ (innovusRun exEnv exSteps 0).1.events.any isSymlinkEv = true
    ∧ (innovusRun exEnv exSteps 0).1.events.any isFlushEv = true
    ∧ (innovusRun exEnv exSteps 0).1.events.findIdx isSymlinkEv <
        (innovusRun exEnv exSteps 0).1.events.findIdx isFlushEv := by
  refine ⟨by decide, by decide, by decide, by decide⟩

/-- C6 (amended): full-trace characterization of a successful run with all
symlink creations succeeding.  Exactly one alias is created per recorded
`(prev, next)` pair — from `pre_{next}` to `post_{prev}` — but the alias
events come at the start of `do_post_steps`, before the finalization flush and
external-process invocation, not after finalization. -/
theorem c6_alias_trace :
    ∀ (env : InnovusEnv) (steps : List StepEff) (k : Nat),
      steps.drop k ≠ [] → (∀ s ∈ steps.drop k, s.ok = true) →
      (∀ a b, env.linkResult a b = LinkResult.ok) →
      innovusRun env steps k =
        (⟨(innovus_do_pre_steps (headNameL (steps.drop k))
              ⟨[], [], []⟩).output ++
            innovusOkOutput (steps.drop k) ++ ["exit"],
          boundaryPairs (steps.drop k),
          (innovus_do_pre_steps (headNameL (steps.drop k))
              ⟨[], [], []⟩).events ++
            innovusOkEvents (innovusHooks env) (steps.drop k) ++
            (boundaryPairs (steps.drop k)).map (fun p =>
              Event.symlinkCreate (env.runDir ++ "/pre_" ++ p.2)
                (env.runDir ++ "/post_" ++ p.1)) ++
            [Event.flushOutput (env.runDir ++ "/par.tcl"),
             Event.runExecutable
               [env.innovusBin, "-nowin", "-common_ui", "-files",
                env.runDir ++ "/par.tcl"]
               (env.execResult
                 [env.innovusBin, "-nowin", "-common_ui", "-files",
                  env.runDir ++ "/par.tcl"])]⟩,
         true) := by
  intro env steps k hne hok hfs
  rw [innovusRun, runPipeline_eq_runFrom _ _ _ hne,
    runFrom_innovus_ok env (steps.drop k) _ hok]
  simp only [innovusHooks]
  rw [innovus_do_post_steps]
  show run_innovus env (innovusSymlinks env
    ((innovus_do_pre_steps (headNameL (steps.drop k))
      ⟨[], [], []⟩).transitions ++ boundaryPairs (steps.drop k)) _) = _
  rw [transitions_innovus_pre, List.nil_append, innovusSymlinks_allOk env hfs,
    run_innovus_eq]

theorem innovusSymlinks_eexist (env : InnovusEnv)
    (hfs : ∀ a b, env.linkResult a b = LinkResult.eexist) :
    ∀ (ps : List (String × String)) (st : PState),
      innovusSymlinks env ps st = st := by
  intro ps st
  cases ps with
  | nil => rfl
  | cons p rest =>
    obtain ⟨prev, nxt⟩ := p
    unfold innovusSymlinks
    rw [hfs]

theorem innovusSymlinks_otherErr (env : InnovusEnv)
    (hfs : ∀ a b, env.linkResult a b = LinkResult.otherErr) :
    ∀ (p : String × String) (ps : List (String × String)) (st : PState),
      innovusSymlinks env (p :: ps) st =
        { st with events := st.events ++ [Event.logWarning] } := by
  intro p ps st
  obtain ⟨prev, nxt⟩ := p
  unfold innovusSymlinks
  rw [hfs]

theorem mem_okEvents (hooks : Hooks) :
    ∀ (steps : List StepEff) (e : Event), e ∈ innovusOkEvents hooks steps →
      (∃ m, e = Event.actionRun m) ∨
      (∃ a b, e = Event.runExecutable a b) ∨
      (∃ nm, e = Event.persist nm) := by
  intro steps
  induction steps with
  | nil => intro e he; simp [innovusOkEvents] at he
  | cons s rest ih =>
    intro e he
    simp only [innovusOkEvents] at he
    rcases List.mem_cons.mp he with h | h
    · exact Or.inl ⟨s.name, h⟩
    rcases List.mem_append.mp h with h | h
    · rcases List.mem_append.mp h with h | h
      · rcases List.mem_map.mp h with ⟨a, -, ha⟩
        exact Or.inr (Or.inl ⟨a, _, ha.symm⟩)
      · cases rest with
        | nil => simp at h
        | cons next r' =>
          simp at h
          exact Or.inr (Or.inr ⟨_, h⟩)
    · exact ih e h

/-- C7 counterexample: a successful run whose alias creations all fail with
`EEXIST` (transitions were recorded, so an alias creation was attempted and
failed) emits no warning at all — `EEXIST` failures are swallowed silently,
not logged as warnings. -/
theorem c7_counterexample :
    (innovusRun exEnvEexist exSteps 0).2 = true
    ∧ (innovusRun exEnvEexist exSteps 0).1.transitions ≠ []
    ∧ Event.logWarning ∉ (innovusRun exEnvEexist exSteps 0).1.events := by
  refine ⟨by decide, by decide, by decide⟩

/-- C7 (amended): alias-creation failure is non-fatal — an all-success run
reports success whatever the symlink outcomes are — but only non-`EEXIST`
failures are logged as warnings: with every attempt failing `EEXIST` no
warning is emitted, while with a non-`EEXIST` failure on a run that recorded
at least one transition a warning is emitted (and either way the remaining
aliases are skipped). -/
theorem c7_alias_failure_nonfatal :
    ∀ (env : InnovusEnv) (steps : List StepEff) (k : Nat),
      steps.drop k ≠ [] → (∀ s ∈ steps.drop k, s.ok = true) →
      (innovusRun env steps k).2 = true
      ∧ ((∀ a b, env.linkResult a b = LinkResult.eexist) →
          Event.logWarning ∉ (innovusRun env steps k).1.events)
      ∧ ((∀ a b, env.linkResult a b = LinkResult.otherErr) →
          boundaryPairs (steps.drop k) ≠ [] →
          Event.logWarning ∈ (innovusRun env steps k).1.events) := by
  intro env steps k hne hok
  have hM : innovusRun env steps k =
      run_innovus env (innovusSymlinks env
        (boundaryPairs (steps.drop k))
        ⟨(innovus_do_pre_steps (headNameL (steps.drop k))
            ⟨[], [], []⟩).output ++ innovusOkOutput (steps.drop k),
          (innovus_do_pre_steps (headNameL (steps.drop k))
            ⟨[], [], []⟩).transitions ++ boundaryPairs (steps.drop k),
          (innovus_do_pre_steps (headNameL (steps.drop k))
            ⟨[], [], []⟩).events ++
            innovusOkEvents (innovusHooks env) (steps.drop k)⟩) := by
    rw [innovusRun, runPipeline_eq_runFrom _ _ _ hne,
      runFrom_innovus_ok env (steps.drop k) _ hok]
    simp only [innovusHooks]
    rw [innovus_do_post_steps]
    simp only [transitions_innovus_pre, List.nil_append]
  refine ⟨?_, ?_, ?_⟩
  · rw [innovusRun, runPipeline_eq_runFrom _ _ _ hne,
      runFrom_snd (innovusHooks env) (innovus_doPost_snd env)]
    exact List.all_eq_true.mpr hok
  · intro hfs2
    rw [hM, innovusSymlinks_eexist env hfs2, run_innovus_eq]
    intro hw
    simp only [List.mem_append] at hw
    rcases hw with (hw | hw) | hw
    · obtain ⟨x, hx⟩ := mem_innovus_pre_events hw
      simp at hx
    · rcases mem_okEvents _ _ _ hw with ⟨m, hm⟩ | ⟨a, b, hab⟩ | ⟨nm, hnm⟩ <;>
        simp_all
    · simp at hw
  · intro hfs3 hbp
    cases hbp2 : boundaryPairs (steps.drop k) with
    | nil => exact absurd hbp2 hbp
    | cons p ps =>
      rw [hbp2] at hM
      rw [hM, innovusSymlinks_otherErr env hfs3, run_innovus_eq]
      simp

theorem countP_isRunExe_pre (n : String) :
    ((innovus_do_pre_steps n ⟨[], [], []⟩).events.countP isRunExe) = 0 := by
  by_cases h : n = "init_design" <;>
    simp [innovus_do_pre_steps, h, isRunExe]

theorem countP_isRunExe_map_runExe (f : List String → Bool)
    (l : List (List String)) :
    (l.map (fun a => Event.runExecutable a (f a))).countP isRunExe =
      l.length := by
  induction l with
  | nil => rfl
  | cons a l ih => simp [List.countP_cons, isRunExe, ih]

theorem innovusOkEvents_cons (hooks : Hooks) (s : StepEff)
    (rest : List StepEff) :
    innovusOkEvents hooks (s :: rest) =
      (Event.actionRun s.name ::
        s.execs.map (fun a => Event.runExecutable a (hooks.execResult a))) ++
      (match rest with
        | [] => []
        | next :: _ => [Event.persist ("pre_" ++ next.name)]) ++
      innovusOkEvents hooks rest := rfl

theorem countP_isRunExe_okEvents (hooks : Hooks) :
    ∀ (steps : List StepEff),
      (innovusOkEvents hooks steps).countP isRunExe =
        (steps.map (fun s => s.execs.length)).sum := by
  intro steps
  induction steps with
  | nil => rfl
  | cons s rest ih =>
    rw [innovusOkEvents_cons]
    simp only [List.countP_append, List.countP_cons]
    rw [ih, countP_isRunExe_map_runExe]
    cases rest with
    | nil => simp [isRunExe]
    | cons next r' => simp [isRunExe]

theorem countP_isRunExe_symlinks (env : InnovusEnv) :
    ∀ (ps : List (String × String)) (st : PState),
      ((innovusSymlinks env ps st).events.countP isRunExe) =
        st.events.countP isRunExe := by
  intro ps
  induction ps with
  | nil => intro st; rfl
  | cons p rest ih =>
    intro st
    obtain ⟨prev, nxt⟩ := p
    unfold innovusSymlinks
    cases env.linkResult (env.runDir ++ "/pre_" ++ nxt)
        (env.runDir ++ "/post_" ++ prev) with
    | ok =>
      rw [ih]
      simp [List.countP_append, List.countP_cons, isRunExe]
    | eexist => rfl
    | otherErr => simp [List.countP_append, List.countP_cons, isRunExe]

/-- C8 counterexample: in a concrete successful full Innovus run,
`run_executable` is invoked twice, not exactly once — the `write_design` step
action runs `chmod +x` on the generated `open_chip` script in addition to the
finalization invocation of the Innovus binary. -/
theorem c8_counterexample :
    (innovusRun exEnv exSteps 0).2 = true
    ∧ (innovusRun exEnv exSteps 0).1.events.countP isRunExe = 2 := by
  refine ⟨by decide, by decide⟩

/-- C8 (amended): across a successful run, the number of `run_executable`
invocations is the number performed by the step actions plus exactly one at
finalization; the last event is the finalization invocation on the flushed
`par.tcl` path; and the Innovus `write_design` step action performs one such
invocation (`chmod +x` on the generated `open_chip` script), so a full
Innovus run performs two invocations in total. -/
theorem c8_run_executable_count :
    ∀ (env : InnovusEnv) (steps : List StepEff) (k : Nat),
      steps.drop k ≠ [] → (∀ s ∈ steps.drop k, s.ok = true) →
      (innovusRun env steps k).1.events.countP isRunExe =
          ((steps.drop k).map (fun s => s.execs.length)).sum + 1
      ∧ (innovusRun env steps k).1.events.getLast? =
          some (Event.runExecutable
            [env.innovusBin, "-nowin", "-common_ui", "-files",
             env.runDir ++ "/par.tcl"]
            (env.execResult
              [env.innovusBin, "-nowin", "-common_ui", "-files",
               env.runDir ++ "/par.tcl"]))
      ∧ write_design_execs env.runDir =
          [["chmod", "+x", env.runDir ++ "/generated-scripts/open_chip"]] := by
  intro env steps k hne hok
  have hrun : innovusRun env steps k =
      run_innovus env (innovusSymlinks env
        (boundaryPairs (steps.drop k))
        ⟨(innovus_do_pre_steps (headNameL (steps.drop k))
            ⟨[], [], []⟩).output ++ innovusOkOutput (steps.drop k),
          boundaryPairs (steps.drop k),
          (innovus_do_pre_steps (headNameL (steps.drop k))
            ⟨[], [], []⟩).events ++
            innovusOkEvents (innovusHooks env) (steps.drop k)⟩) := by
    rw [innovusRun, runPipeline_eq_runFrom _ _ _ hne,
      runFrom_innovus_ok env (steps.drop k) _ hok]
    simp only [innovusHooks]
    rw [innovus_do_post_steps]
    simp only [transitions_innovus_pre, List.nil_append]
  refine ⟨?_, ?_, rfl⟩
  · rw [hrun, run_innovus_eq]
    show ((innovusSymlinks env _ _).events ++ _).countP isRunExe = _
    rw [List.countP_append, countP_isRunExe_symlinks]
    show ((innovus_do_pre_steps (headNameL (steps.drop k))
        ⟨[], [], []⟩).events ++
        innovusOkEvents (innovusHooks env) (steps.drop k)).countP isRunExe
        + _ = _
    rw [List.countP_append, countP_isRunExe_pre, countP_isRunExe_okEvents]
    simp [isRunExe]
  · rw [hrun, run_innovus_eq]
    show ((innovusSymlinks env _ _).events ++
      [Event.flushOutput _, Event.runExecutable _ _]).getLast? = _
    rw [show ∀ (l : List Event) (a b : Event), l ++ [a, b] = (l ++ [a]) ++ [b]
        from fun l a b => by simp]
    rw [List.getLast?_concat]

/-- C1 witness: concrete instance — starting the flat-mode run at step index 1
(`floorplan_design`), which is not the first step. -/
theorem c1_restore_iff_not_first_witness :
    exSteps.map StepEff.name = innovusStepNames HierarchicalMode.flat
    ∧ (Event.restore ("pre_" ++
          (innovusStepNames HierarchicalMode.flat).get ⟨1, by decide⟩) ∈
        (innovusRun exEnv exSteps 1).1.events ↔
      (innovusStepNames HierarchicalMode.flat).get ⟨1, by decide⟩ ≠
        (innovusStepNames HierarchicalMode.flat).headD "") :=
  ⟨by decide,
    c1_restore_iff_not_first.1 HierarchicalMode.flat exEnv exSteps 1
      (by decide) (by decide)⟩

/-- C2 witness: concrete instance at the boundary between steps 2 and 3. -/
theorem c2_checkpoint_roundtrip_witness :
    exSteps.map StepEff.name = innovusStepNames HierarchicalMode.flat
    ∧ (∀ s ∈ exSteps, s.ok = true)
    ∧ (evPersists (innovusRun exEnv exSteps 0).1 =
          (boundaryPairs exSteps).map (fun p => "pre_" ++ p.2)
        ∧ (boundaryPairs exSteps).get? 2 =
            some ((innovusStepNames HierarchicalMode.flat).get ⟨2, by decide⟩,
              (innovusStepNames HierarchicalMode.flat).get ⟨3, by decide⟩)
        ∧ evRestores (innovusRun exEnv exSteps 3).1 =
            ["pre_" ++ (innovusStepNames HierarchicalMode.flat).get
              ⟨3, by decide⟩]) :=
  ⟨by decide, by decide,
    c2_checkpoint_roundtrip HierarchicalMode.flat exEnv exSteps (by decide)
      (by decide) 2 (by decide)⟩

/-- C3 witness: concrete instance of the failing run (`clock_tree` fails). -/
theorem c3_fail_fast_witness :
    exFailSteps.drop 0 = exFailPre ++ exFailBad :: exFailRest
    ∧ ((exFailPre ++ exFailBad :: exFailRest).map StepEff.name).Nodup
    ∧ (∀ s ∈ exFailPre, s.ok = true)
    ∧ exFailBad.ok = false
    ∧ ((innovusRun exEnv exFailSteps 0).2 = false
        ∧ (innovusRun exEnv exFailSteps 0).1.output =
            (innovus_do_pre_steps (headName exFailPre exFailBad)
                ⟨[], [], []⟩).output ++
              innovusFailOutput exFailPre exFailBad
        ∧ (∀ s ∈ exFailRest,
            Event.actionRun s.name ∉ (innovusRun exEnv exFailSteps 0).1.events)
        ∧ (∀ t, exFailRest.head? = some t →
            Event.persist ("pre_" ++ t.name) ∉
              (innovusRun exEnv exFailSteps 0).1.events)
        ∧ (∀ p, Event.flushOutput p ∉
            (innovusRun exEnv exFailSteps 0).1.events)) :=
  ⟨by decide, by decide, by decide, by decide,
    c3_fail_fast exEnv exFailSteps 0 exFailPre exFailBad exFailRest
      (by decide) (by decide) (by decide) (by decide)⟩

/-- C5 witness: concrete instance — the full successful run crosses 8
boundaries. -/
theorem c5_transition_history_witness :
    0 < exSteps.length
    ∧ (∀ s ∈ exSteps, s.ok = true)
    ∧ ((innovusRun exEnv exSteps 0).1.transitions =
          boundaryPairs (exSteps.drop 0)
        ∧ (innovusRun exEnv exSteps 0).1.transitions.length =
            exSteps.length - 0 - 1) :=
  ⟨by decide, by decide,
    c5_transition_history exEnv exSteps 0 (by decide) (by decide)⟩

/-- C7 amended-theorem witness: concrete successful run. -/
theorem c7_alias_failure_nonfatal_witness :
    exSteps.drop 0 ≠ []
    ∧ (∀ s ∈ exSteps.drop 0, s.ok = true)
    ∧ ((innovusRun exEnv exSteps 0).2 = true
        ∧ ((∀ a b, exEnv.linkResult a b = LinkResult.eexist) →
            Event.logWarning ∉ (innovusRun exEnv exSteps 0).1.events)
        ∧ ((∀ a b, exEnv.linkResult a b = LinkResult.otherErr) →
            boundaryPairs (exSteps.drop 0) ≠ [] →
            Event.logWarning ∈ (innovusRun exEnv exSteps 0).1.events)) :=
  ⟨by decide, by decide,
    c7_alias_failure_nonfatal exEnv exSteps 0 (by decide) (by decide)⟩

/-- C8 amended-theorem witness: concrete successful run (one step-action
invocation plus the finalization one). -/
theorem c8_run_executable_count_witness :
    exSteps.drop 0 ≠ []
    ∧ (∀ s ∈ exSteps.drop 0, s.ok = true)
    ∧ ((innovusRun exEnv exSteps 0).1.events.countP isRunExe =
          ((exSteps.drop 0).map (fun s => s.execs.length)).sum + 1
        ∧ (innovusRun exEnv exSteps 0).1.events.getLast? =
            some (Event.runExecutable
              [exEnv.innovusBin, "-nowin", "-common_ui", "-files",
               exEnv.runDir ++ "/par.tcl"]
              (exEnv.execResult
                [exEnv.innovusBin, "-nowin", "-common_ui", "-files",
                 exEnv.runDir ++ "/par.tcl"]))
        ∧ write_design_execs exEnv.runDir =
            [["chmod", "+x", exEnv.runDir ++ "/generated-scripts/open_chip"]]) :=
  ⟨by decide, by decide,
    c8_run_executable_count exEnv exSteps 0 (by decide) (by decide)⟩

/-- C6 amended-theorem witness: concrete successful run with all symlink
creations succeeding. -/
theorem c6_alias_trace_witness :
    exSteps.drop 0 ≠ []
    ∧ (∀ s ∈ exSteps.drop 0, s.ok = true)
    ∧ (∀ a b, exEnv.linkResult a b = LinkResult.ok)
    ∧ innovusRun exEnv exSteps 0 =
        (⟨(innovus_do_pre_steps (headNameL (exSteps.drop 0))
              ⟨[], [], []⟩).output ++
            innovusOkOutput (exSteps.drop 0) ++ ["exit"],
          boundaryPairs (exSteps.drop 0),
          (innovus_do_pre_steps (headNameL (exSteps.drop 0))
              ⟨[], [], []⟩).events ++
            innovusOkEvents (innovusHooks exEnv) (exSteps.drop 0) ++
            (boundaryPairs (exSteps.drop 0)).map (fun p =>
              Event.symlinkCreate (exEnv.runDir ++ "/pre_" ++ p.2)
                (exEnv.runDir ++ "/post_" ++ p.1)) ++
            [Event.flushOutput (exEnv.runDir ++ "/par.tcl"),
             Event.runExecutable
               [exEnv.innovusBin, "-nowin", "-common_ui", "-files",
                exEnv.runDir ++ "/par.tcl"]
               (exEnv.execResult
                 [exEnv.innovusBin, "-nowin", "-common_ui", "-files",
                  exEnv.runDir ++ "/par.tcl"])]⟩,
         true) :=
  ⟨by decide, by decide, fun a b => rfl,
    c6_alias_trace exEnv exSteps 0 (by decide) (by decide) (fun a b => rfl)⟩

theorem pyFormat_setup_keyerror (v : String) :
    pyFormat "read_libs \x7bSETUP_LIBS\x7d -infer_memory_cells"
      [("SETUP_LIB", v)] = Except.error (PyError.keyError "SETUP_LIBS") := rfl

/-- C9: for every MMMC corner list containing a `Setup` corner and no `Extra`
corner, `Joules.init_technology` raises `KeyError("SETUP_LIBS")` — the format
template's placeholder `SETUP_LIBS` never matches the keyword argument
`SETUP_LIB` — instead of returning the emitted commands. -/
theorem c9_init_technology_keyerror :
    ∀ (corners : List MMMCCorner),
      (∃ c ∈ corners, c.ctype = MMMCCornerType.setup) →
      (∀ c ∈ corners, c.ctype ≠ MMMCCornerType.extra) →
      init_technology corners =
        Except.error (PyError.keyError "SETUP_LIBS") := by
  intro corners hsetup hextra
  unfold init_technology
  rw [if_neg (by
    intro h
    have hmem := List.elem_iff.mp h
    rcases List.mem_map.mp hmem with ⟨c, hc, hct⟩
    exact hextra c hc hct)]
  cases hfind : corners.find? (fun c => c.ctype == MMMCCornerType.setup) with
  | none =>
    exfalso
    obtain ⟨c, hc, hct⟩ := hsetup
    have := List.find?_eq_none.mp hfind c hc
    simp [hct] at this
  | some c =>
    show Except.map (fun cmd => [cmd])
      (pyFormat "read_libs \x7bSETUP_LIBS\x7d -infer_memory_cells"
        [("SETUP_LIB", c.libs)]) = _
    rw [pyFormat_setup_keyerror]
    rfl

/-- C9 witness: a single setup corner. -/
theorem c9_init_technology_keyerror_witness :
    (∃ c ∈ [MMMCCorner.mk "fast" MMMCCornerType.setup "lib1.lib"],
      c.ctype = MMMCCornerType.setup)
    ∧ (∀ c ∈ [MMMCCorner.mk "fast" MMMCCornerType.setup "lib1.lib"],
      c.ctype ≠ MMMCCornerType.extra)
    ∧ init_technology [MMMCCorner.mk "fast" MMMCCornerType.setup "lib1.lib"] =
        Except.error (PyError.keyError "SETUP_LIBS") :=
  ⟨by decide, by decide,
    c9_init_technology_keyerror
      [MMMCCorner.mk "fast" MMMCCornerType.setup "lib1.lib"]
      (by decide) (by decide)⟩

theorem isDigit_ne_underscore {c : Char} (h : c.isDigit = true) : c ≠ '_' := by
  intro heq
  rw [heq] at h
  exact absurd h (by decide)

theorem pySplit_no_sep (sep : Char) :
    ∀ (l : List Char), (∀ c ∈ l, c ≠ sep) → pySplit sep l = [l] := by
  intro l
  induction l with
  | nil => intro _; rfl
  | cons c cs ih =>
    intro h
    rw [pySplit, if_neg (h c (List.mem_cons_self c cs)),
      ih (fun x hx => h x (List.mem_cons_of_mem c hx))]

theorem pySplit_append (sep : Char) (rest : List Char) :
    ∀ (d1 : List Char), (∀ c ∈ d1, c ≠ sep) →
      pySplit sep (d1 ++ sep :: rest) = d1 :: pySplit sep rest := by
  intro d1
  induction d1 with
  | nil =>
    intro _
    rw [List.nil_append, pySplit, if_pos rfl]
  | cons c cs ih =>
    intro h
    rw [List.cons_append, pySplit, if_neg (h c (List.mem_cons_self c cs)),
      ih (fun x hx => h x (List.mem_cons_of_mem c hx))]

theorem version_number_ISR (d1 d2 : List Char)
    (h1 : ∀ c ∈ d1, c.isDigit = true) (h2 : ∀ c ∈ d2, c.isDigit = true) :
    version_number ⟨d1 ++ '_' :: 'I' :: 'S' :: 'R' :: d2⟩ =
      pyInt d1 * 100 + pyInt d2 := by
  have hne1 : ∀ c ∈ d1, c ≠ '_' :=
    fun c hc => isDigit_ne_underscore (h1 c hc)
  have hsplit : pySplit '_' (d1 ++ '_' :: 'I' :: 'S' :: 'R' :: d2) =
      d1 :: pySplit '_' ('I' :: 'S' :: 'R' :: d2) :=
    pySplit_append '_' _ d1 hne1
  have hsplit2 : pySplit '_' ('I' :: 'S' :: 'R' :: d2) =
      ['I' :: 'S' :: 'R' :: d2] := by
    apply pySplit_no_sep
    intro c hc
    rcases List.mem_cons.mp hc with rfl | hc
    · decide
    rcases List.mem_cons.mp hc with rfl | hc
    · decide
    rcases List.mem_cons.mp hc with rfl | hc
    · decide
    · exact isDigit_ne_underscore (h2 c hc)
  simp only [version_number]
  rw [hsplit, hsplit2]
  rw [if_pos (by simp)]
  simp [List.headD, List.getD, pyInt]

/-- C10: `CadenceTool.version_number` maps `MAJOR_ISRMINOR` (decimal numerals
`MAJOR`, `MINOR`) to `MAJOR * 100 + MINOR`, maps an underscore-free numeral
`MAJOR` to `MAJOR * 100`, is order-correct while both minors stay below 100,
and collides once a minor reaches 100 (`1_ISR100` and `2` both map to 200). -/
theorem c10_version_number :
    (∀ (d1 d2 : List Char), d1 ≠ [] → d2 ≠ [] →
      (∀ c ∈ d1, c.isDigit = true) → (∀ c ∈ d2, c.isDigit = true) →
      version_number ⟨d1 ++ '_' :: 'I' :: 'S' :: 'R' :: d2⟩ =
        pyInt d1 * 100 + pyInt d2)
    ∧ (∀ (d : List Char), d ≠ [] → (∀ c ∈ d, c.isDigit = true) →
        '_' ∉ d → version_number ⟨d⟩ = pyInt d * 100)
    ∧ (∀ (d1 d2 e1 e2 : List Char),
        (∀ c ∈ d1, c.isDigit = true) → (∀ c ∈ d2, c.isDigit = true) →
        (∀ c ∈ e1, c.isDigit = true) → (∀ c ∈ e2, c.isDigit = true) →
        pyInt d2 < 100 → pyInt e2 < 100 →
        (version_number ⟨d1 ++ '_' :: 'I' :: 'S' :: 'R' :: d2⟩ ≤
            version_number ⟨e1 ++ '_' :: 'I' :: 'S' :: 'R' :: e2⟩ ↔
          (pyInt d1 < pyInt e1 ∨
            (pyInt d1 = pyInt e1 ∧ pyInt d2 ≤ pyInt e2))))
    ∧ version_number "1_ISR100" = 200 ∧ version_number "2" = 200 := by
  refine ⟨?_, ?_, ?_, by decide, by decide⟩
  · intro d1 d2 _ _ h1 h2
    exact version_number_ISR d1 d2 h1 h2
  · intro d _ hdig hund
    have hsplit : pySplit '_' d = [d] :=
      pySplit_no_sep '_' d (fun c hc heq => hund (heq ▸ hc))
    simp only [version_number]
    rw [hsplit, if_neg (by simpa using hund)]
    simp [List.headD]
  · intro d1 d2 e1 e2 h1 h2 h3 h4 hb1 hb2
    rw [version_number_ISR d1 d2 h1 h2, version_number_ISR e1 e2 h3 h4]
    constructor
    · intro h
      omega
    · intro h
      omega

/-- C10 witness: concrete version string `17_ISR2`. -/
theorem c10_version_number_witness :
    ("17".data ≠ [] ∧ "2".data ≠ []
      ∧ (∀ c ∈ "17".data, c.isDigit = true)
      ∧ (∀ c ∈ "2".data, c.isDigit = true))
    ∧ version_number ⟨"17".data ++ '_' :: 'I' :: 'S' :: 'R' :: "2".data⟩ =
        pyInt "17".data * 100 + pyInt "2".data :=
  ⟨⟨by decide, by decide, by decide, by decide⟩,
    c10_version_number.1 "17".data "2".data (by decide) (by decide)
      (by decide) (by decide)⟩
